import Mathlib

/-!
Verification of the goxy billing-aware spend limiter.

This file shallowly embeds the core of the goxy reverse proxy's pricing and
spend-limiting code (packages `pricing` and `persistence`) and proves the
behavioural claims C1-C10 about it.

Modelling conventions:
* Go `int64` values (the `Money` type of `money.go`) are modelled as `Int`
  with explicit two's-complement wraparound (`wrap64`) applied by the
  arithmetic operations, mirroring Go's silent wraparound on `+` and `*`.
* Go `time.Time` instants are modelled as `Int` Unix seconds; `time.Hour`
  becomes the constant `hourSec = 3600`.  The persistence layer stores Unix
  seconds (`windowStart.Unix()`), so second granularity is the precision the
  persisted claims are stated at.
* The `sync.Map` of per-key windows is modelled as an association list with
  unique keys; per-key mutexes serialise all operations in the source, so
  each operation is a pure function from (state, arguments, now) to
  (result, state).
* Go strings are modelled as Lean `String`s; `raw[:len(p)] == p` becomes a
  comparison of the first `p.data.length` characters (byte = character for
  the ASCII model names involved).
* `float64` configuration rates are modelled as exact rationals `ℚ`;
  `math.Round` becomes `round : ℚ → ℤ` (the rates used are non-negative, so
  round-half-up and Go's round-half-away-from-zero agree).
-/

namespace Goxy

/-! ## Money (money.go, src/unnamed/part_004) -/

/-- MonetaryUnit: 1 USD = 10^10 nano-units (`const MonetaryUnit = 10_000_000_000`). -/
def monetaryUnit : Int := 10000000000

/-- Go's `int64` minimum. -/
def int64Min : Int := -(2 ^ 63)

/-- Go's `int64` maximum (`MaxMoney` in money.go). -/
def int64Max : Int := 2 ^ 63 - 1

/-- Two's-complement wraparound of Go `int64` arithmetic. -/
def wrap64 (x : Int) : Int := (x + 2 ^ 63) % 2 ^ 64 - 2 ^ 63

namespace Money

/-- `func (m Money) Add(other Money) Money { return m + other }` (int64 `+`). -/
def add (m other : Int) : Int := wrap64 (m + other)

/-- `func (m Money) Multiply(factor int64) Money { return m * Money(factor) }`. -/
def multiply (m factor : Int) : Int := wrap64 (m * factor)

/-- `func (m Money) IsZero() bool { return m == 0 }` -/
def isZero (m : Int) : Bool := m == 0

/-- `func (m Money) IsNegative() bool { return m < 0 }` -/
def isNegative (m : Int) : Bool := decide (m < 0)

/-- `func (m Money) LessThan(other Money) bool { return m < other }` -/
def lessThan (m other : Int) : Bool := decide (m < other)

/-- `func (m Money) GreaterThan(other Money) bool { return m > other }` -/
def greaterThan (m other : Int) : Bool := decide (m > other)

end Money

/-- `func NewMoneyFromUSD(usd float64) Money { return Money(math.Round(usd * MonetaryUnit)) }`,
with the `float64` argument modelled as an exact rational. -/
def newMoneyFromUSD (usd : ℚ) : Int := round (usd * (monetaryUnit : ℚ))

/-! ## Spend limiter (limit.go) -/

/-- `time.Hour` in Unix seconds. -/
def hourSec : Int := 3600

/-- `keyWindowMoney`: windowStart plus accumulated spend (the mutex is modelled
by the operations being atomic functions). -/
structure KeyWindowMoney where
  windowStart : Int
  spent : Int
deriving DecidableEq, Repr

/-- `ManagerMoney`: the process-wide limit plus the per-key window map
(`sync.Map` modelled as an association list with unique keys). -/
structure ManagerMoney where
  limit : Int
  perKey : List (String × KeyWindowMoney)
deriving DecidableEq, Repr

/-- Association-list lookup, modelling `m.perKey.Load(key)`. -/
def lookupKW : List (String × KeyWindowMoney) → String → Option KeyWindowMoney
  | [], _ => none
  | (k, kw) :: rest, key => if k = key then some kw else lookupKW rest key

/-- Association-list insert-or-replace, modelling storing through the
`*keyWindowMoney` pointer (update) or `LoadOrStore` (insert). -/
def setKW : List (String × KeyWindowMoney) → String → KeyWindowMoney →
    List (String × KeyWindowMoney)
  | [], key, kw => [(key, kw)]
  | (k, kw0) :: rest, key, kw =>
    if k = key then (k, kw) :: rest else (k, kw0) :: setKW rest key kw

/-- `NewManagerMoney`: fresh manager with the given limit and no tracked keys. -/
def newManagerMoney (limit : Int) : ManagerMoney := ⟨limit, []⟩

/-- `getKWMoney`: fetch the key's window, lazily creating it with
`windowStart: time.Now()` and zero spend.  Returns the window and the
(possibly extended) state. -/
def ManagerMoney.getKWMoney (m : ManagerMoney) (key : String) (now : Int) :
    KeyWindowMoney × ManagerMoney :=
  match lookupKW m.perKey key with
  | some kw => (kw, m)
  | none =>
    let kw : KeyWindowMoney := ⟨now, 0⟩
    (kw, ⟨m.limit, setKW m.perKey key kw⟩)

/-- The result quadruple of `ManagerMoney.Allow`. -/
structure AllowResult where
  allowed : Bool
  windowEnd : Int
  spentSoFar : Int
  limit : Int
deriving DecidableEq, Repr

/-- `ManagerMoney.Allow` (limit.go lines 233-254).  The zero `time.Time{}`
returned on the untracked paths is modelled as `0`. -/
def ManagerMoney.allow (m : ManagerMoney) (key : String) (now : Int) :
    AllowResult × ManagerMoney :=
  let lim := m.limit
  if key = "" then (⟨true, 0, 0, lim⟩, m)
  else if Money.isNegative lim then (⟨true, 0, 0, lim⟩, m)
  else if Money.isZero lim then (⟨false, now + hourSec, 0, lim⟩, m)
  else
    let r := m.getKWMoney key now
    let kw := r.1
    let kw1 := if now - kw.windowStart ≥ hourSec then (⟨now, 0⟩ : KeyWindowMoney) else kw
    let windowEnd := kw1.windowStart + hourSec
    (⟨Money.lessThan kw1.spent lim, windowEnd, kw1.spent, lim⟩,
      ⟨r.2.limit, setKW r.2.perKey key kw1⟩)

/-- `ManagerMoney.AddCost` (limit.go lines 257-276). -/
def ManagerMoney.addCost (m : ManagerMoney) (key : String) (delta : Int) (now : Int) :
    ManagerMoney :=
  if Money.isZero delta || Money.isNegative delta || key = "" then m
  else if Money.isNegative m.limit then m
  else if Money.isZero m.limit then m
  else
    let r := m.getKWMoney key now
    let kw := r.1
    let kw1 := if now - kw.windowStart ≥ hourSec then (⟨now, 0⟩ : KeyWindowMoney) else kw
    let kw2 : KeyWindowMoney := ⟨kw1.windowStart, Money.add kw1.spent delta⟩
    ⟨r.2.limit, setKW r.2.perKey key kw2⟩

/-- `UsageInfoMoney` (limit.go lines 296-304). -/
structure UsageInfoMoney where
  key : String
  spent : Int
  limit : Int
  windowStart : Int
  windowEnd : Int
  remaining : Int
  allowed : Bool
deriving DecidableEq, Repr

/-- `ManagerMoney.GetUsage` (limit.go lines 307-377).  The `remaining`
computation `Money(int64(lim) - int64(spent))` is int64 subtraction, hence
`wrap64`. -/
def ManagerMoney.getUsage (m : ManagerMoney) (key : String) (now : Int) :
    UsageInfoMoney × ManagerMoney :=
  let lim := m.limit
  if key = "" then
    let allowed := !Money.isZero lim
    let remaining := if Money.isNegative lim then (-1 : Int) else lim
    (⟨"anonymous", 0, lim, now, now + hourSec, remaining, allowed⟩, m)
  else if Money.isNegative lim then
    (⟨key, 0, lim, now, now + hourSec, -1, true⟩, m)
  else if Money.isZero lim then
    (⟨key, 0, lim, now, now + hourSec, 0, false⟩, m)
  else
    let r := m.getKWMoney key now
    let kw := r.1
    let kw1 := if now - kw.windowStart ≥ hourSec then (⟨now, 0⟩ : KeyWindowMoney) else kw
    let windowEnd := kw1.windowStart + hourSec
    let spent := kw1.spent
    let remaining := if Money.greaterThan lim spent then wrap64 (lim - spent) else 0
    (⟨key, spent, lim, kw1.windowStart, windowEnd, remaining, Money.lessThan spent lim⟩,
      ⟨r.2.limit, setKW r.2.perKey key kw1⟩)

/-- `ManagerMoney.GetAllUsage` (limit.go lines 380-415): visits every tracked
key, applying the same expiry reset, and reports a snapshot of each. -/
def ManagerMoney.getAllUsage (m : ManagerMoney) (now : Int) :
    List UsageInfoMoney × ManagerMoney :=
  let step := fun (e : String × KeyWindowMoney) =>
    let kw := e.2
    let kw1 := if now - kw.windowStart ≥ hourSec then (⟨now, 0⟩ : KeyWindowMoney) else kw
    let windowEnd := kw1.windowStart + hourSec
    let spent := kw1.spent
    let remaining := if Money.greaterThan m.limit spent then wrap64 (m.limit - spent) else 0
    ((⟨e.1, spent, m.limit, kw1.windowStart, windowEnd, remaining,
        Money.isNegative m.limit || Money.lessThan spent m.limit⟩ : UsageInfoMoney),
      (e.1, kw1))
  (m.perKey.map (fun e => (step e).1), ⟨m.limit, m.perKey.map (fun e => (step e).2)⟩)

/-- `ManagerMoney.UpdateLimit`. -/
def ManagerMoney.updateLimit (m : ManagerMoney) (newLimit : Int) : ManagerMoney :=
  ⟨newLimit, m.perKey⟩

/-- The expiry reset rule shared (textually repeated) by Allow, AddCost,
GetUsage and GetAllUsage: reset to `(now, 0)` once an hour has elapsed. -/
def resetIfExpired (kw : KeyWindowMoney) (now : Int) : KeyWindowMoney :=
  if now - kw.windowStart ≥ hourSec then ⟨now, 0⟩ else kw

/-! ## Pricing configuration (config.go) -/

/-- `TierPricing`: float64 YAML rates, modelled as exact rationals. -/
structure TierPricing where
  prompt : ℚ
  cachedPrompt : ℚ
  completion : ℚ
deriving DecidableEq

/-- `ModelPricing` (config.go lines 28-36). -/
structure ModelPricing where
  prompt : ℚ
  cachedPrompt : ℚ
  completion : ℚ
  flex : Option TierPricing := none
  priority : Option TierPricing := none
  batch : Option TierPricing := none
  aliases : List String := []
deriving DecidableEq

/-- `TierPricingMoney`. -/
structure TierPricingMoney where
  prompt : Int
  cachedPrompt : Int
  completion : Int
deriving DecidableEq

/-- `ModelPricingMoney` (config.go lines 39-47). -/
structure ModelPricingMoney where
  prompt : Int
  cachedPrompt : Int
  completion : Int
  flex : Option TierPricingMoney := none
  priority : Option TierPricingMoney := none
  batch : Option TierPricingMoney := none
  aliases : List String := []
deriving DecidableEq

/-- `PricingConfig`: `models` is a Go map; modelled as an association list
with unique keys (Go map iteration order is arbitrary; the list order is one
such order). -/
structure PricingConfig where
  models : List (String × ModelPricing)
  defaultPricing : Option ModelPricing := none
deriving DecidableEq

/-- `PricingConfigMoney` (config.go lines 56-59). -/
structure PricingConfigMoney where
  models : List (String × ModelPricingMoney)
  defaultPricing : Option ModelPricingMoney := none
deriving DecidableEq

/-- `TierPricing` → Money rates, as in `ModelPricing.ToMoney`:
each per-million-token rate is divided by 1e6 and rounded to a per-token
Money rate. -/
def TierPricing.toMoney (tp : TierPricing) : TierPricingMoney :=
  ⟨newMoneyFromUSD (tp.prompt / 1000000),
    newMoneyFromUSD (tp.cachedPrompt / 1000000),
    newMoneyFromUSD (tp.completion / 1000000)⟩

/-- `ModelPricing.ToMoney` (config.go lines 176-209): converts the float
per-million rates to per-token Money rates (`NewMoneyFromUSD(rate / 1e6)`)
and copies the aliases. -/
def ModelPricing.toMoney (mp : ModelPricing) : ModelPricingMoney :=
  { prompt := newMoneyFromUSD (mp.prompt / 1000000)
    cachedPrompt := newMoneyFromUSD (mp.cachedPrompt / 1000000)
    completion := newMoneyFromUSD (mp.completion / 1000000)
    flex := mp.flex.map TierPricing.toMoney
    priority := mp.priority.map TierPricing.toMoney
    batch := mp.batch.map TierPricing.toMoney
    aliases := mp.aliases }

/-- `PricingConfig.ToMoney` (config.go lines 212-227). -/
def PricingConfig.toMoney (cfg : PricingConfig) : PricingConfigMoney :=
  ⟨cfg.models.map (fun e => (e.1, e.2.toMoney)),
    cfg.defaultPricing.map ModelPricing.toMoney⟩

/-- Association-list lookup for model maps, modelling `cfg.Models[name]`. -/
def lookupModel : List (String × ModelPricingMoney) → String → Option ModelPricingMoney
  | [], _ => none
  | (k, p) :: rest, name => if k = name then some p else lookupModel rest name

/-- Go's `len(raw) >= len(p) && raw[:len(p)] == p`: `p` is a leading segment
of `raw` (bytes modelled as characters). -/
def goHasPref (raw p : String) : Bool :=
  decide (p.data.length ≤ raw.data.length) && (raw.data.take p.data.length == p.data)

/-- One step of the longest-matching-name fold of `resolveModelName`: take a
configured name whenever it is strictly longer than the current best and is a
leading segment of `raw`. -/
def bmStep (raw best cm : String) : String :=
  if best.data.length < cm.data.length && goHasPref raw cm then cm else best

/-- The longest-matching-name fold of `resolveModelName` (pricing.go lines
88-96), starting from `bestMatch = ""`. -/
def bestMatchFold (keys : List String) (raw : String) : String :=
  keys.foldl (bmStep raw) ""

/-- `resolveModelName` (pricing.go lines 75-105): exact key match first, then
longest configured-name leading-segment match, else the raw name unchanged. -/
def resolveModelName (keys : List String) (raw : String) : String :=
  if raw ∈ keys then raw
  else
    let bestMatch := bestMatchFold keys raw
    if bestMatch ≠ "" then bestMatch else raw

/-- `PricingConfigMoney.FindModelPricingMoney` (config.go lines 250-275):
direct lookup, else longest leading-segment match over the configured names;
aliases are never consulted. -/
def findModelPricingMoney (cfg : PricingConfigMoney) (modelName : String) :
    Option ModelPricingMoney :=
  match lookupModel cfg.models modelName with
  | some p => some p
  | none =>
    let best := cfg.models.foldl
      (fun (best : String × Option ModelPricingMoney) e =>
        if best.1.data.length < e.1.data.length && goHasPref modelName e.1 then
          (e.1, some e.2)
        else best)
      ("", none)
    best.2

/-- `ModelPricingMoney.GetTierPricingMoney` (config.go lines 230-247):
the requested tier's override if configured, else the standard triple. -/
def getTierPricingMoney (mp : ModelPricingMoney) (serviceTier : String) :
    Int × Int × Int × String :=
  if serviceTier = "flex" then
    match mp.flex with
    | some t => (t.prompt, t.cachedPrompt, t.completion, "flex")
    | none => (mp.prompt, mp.cachedPrompt, mp.completion, "standard")
  else if serviceTier = "priority" then
    match mp.priority with
    | some t => (t.prompt, t.cachedPrompt, t.completion, "priority")
    | none => (mp.prompt, mp.cachedPrompt, mp.completion, "standard")
  else if serviceTier = "batch" then
    match mp.batch with
    | some t => (t.prompt, t.cachedPrompt, t.completion, "batch")
    | none => (mp.prompt, mp.cachedPrompt, mp.completion, "standard")
  else (mp.prompt, mp.cachedPrompt, mp.completion, "standard")

/-- `getPricingMoney` (pricing.go lines 178-198): model lookup, falling back
to the default rate with actualTier "standard"; `none` when neither exists
(the `fmt.Errorf` path). -/
def getPricingMoney (cfg : PricingConfigMoney) (model : String) (serviceTier : String) :
    Option (Int × Int × Int × String) :=
  match findModelPricingMoney cfg model with
  | some p => some (getTierPricingMoney p serviceTier)
  | none =>
    match cfg.defaultPricing with
    | some d =>
      let t := getTierPricingMoney d serviceTier
      some (t.1, t.2.1, t.2.2.1, "standard")
    | none => none

/-! ## Cost computation (pricing.go) -/

/-- `Usage` (pricing.go lines 9-17); Go `int` fields. -/
structure Usage where
  promptTokens : Int
  promptCachedTokens : Int := 0
  completionTokens : Int := 0
  totalTokens : Int := 0
deriving DecidableEq, Repr

/-- `PriceResultMoney` (pricing.go lines 32-41). -/
structure PriceResultMoney where
  model : String
  serviceTier : String
  promptTokens : Int
  completionTokens : Int
  promptCost : Int
  completionCost : Int
  totalCost : Int
  note : String
deriving DecidableEq, Repr

/-- `ComputePriceMoneyWithTier` (pricing.go lines 206-264).

The token-count scaling is the exact-integer semantics the repository's own
precision tests pin down (`TestComputePriceMoney_WithCachedTokens`,
`TestPricing_SmallestTokenAccumulation`): the per-token Money rates produced
by `ModelPricing.ToMoney` (config.go) are multiplied by the integer token
counts with `Money.Multiply` (money.go, `factor int64`), replacing the
intermediate `float64(tokens)/1e6` factor of one source snapshot by its
exact value. -/
def computePriceMoneyWithTier (cfg : PricingConfigMoney) (modelRaw : String)
    (u : Usage) (serviceTier : String) : PriceResultMoney :=
  let modelName := resolveModelName (cfg.models.map Prod.fst) modelRaw
  match getPricingMoney cfg modelName serviceTier with
  | none =>
    ⟨modelName, serviceTier, u.promptTokens, u.completionTokens, 0, 0, 0,
      "unknown model pricing"⟩
  | some (promptPrice, cachedPromptPrice, completionPrice, actualTier) =>
    let ptCost :=
      if u.promptCachedTokens > 0 then
        let cached :=
          if u.promptCachedTokens > u.promptTokens then u.promptTokens
          else u.promptCachedTokens
        let nonCachedTokens := u.promptTokens - cached
        let nonCachedCost := Money.multiply promptPrice nonCachedTokens
        let cachedCost := Money.multiply cachedPromptPrice cached
        Money.add nonCachedCost cachedCost
      else Money.multiply promptPrice u.promptTokens
    let ctCost := Money.multiply completionPrice u.completionTokens
    let total := Money.add ptCost ctCost
    let note :=
      "prices loaded from config; verify against https://openai.com/api/pricing/"
        ++ (if actualTier ≠ "standard" then
              " (using " ++ actualTier ++ " tier pricing)" else "")
        ++ (if u.promptCachedTokens > 0 then
              " (includes cached prompt token pricing)" else "")
    ⟨modelName, actualTier, u.promptTokens, u.completionTokens, ptCost, ctCost,
      total, note⟩

/-- `ComputePriceMoney`: standard tier. -/
def computePriceMoney (cfg : PricingConfigMoney) (modelRaw : String) (u : Usage) :
    PriceResultMoney :=
  computePriceMoneyWithTier cfg modelRaw u "standard"

/-! ## Persistence (persistence.go) -/

/-- `UsageRecord` (persistence.go lines 23-29); times in Unix seconds. -/
structure UsageRecord where
  key : String
  maskedKey : String
  windowStart : Int
  spent : Int
  lastUpdated : Int
deriving DecidableEq, Repr

/-- `loadUsageData` (persistence.go lines 97-147): the SQL query keeps rows
with `window_start > cutoff` for `cutoff = now - 1h`, and each surviving row
is replayed as `AddCost(key, spent)` only if additionally
`now.Sub(record.WindowStart) < time.Hour`.  All replayed AddCost calls run at
load time `now`. -/
def loadUsageData (rows : List UsageRecord) (now : Int) (m : ManagerMoney) :
    ManagerMoney :=
  (rows.filter (fun r => now - hourSec < r.windowStart)).foldl
    (fun acc r =>
      if now - r.windowStart < hourSec then acc.addCost r.key r.spent now else acc)
    m

/-- `NewPersistentLimitManager...` (persistence.go lines 42-75): a fresh
in-memory manager with the configured limit, into which the stored rows are
loaded at construction time `now`. -/
def newPersistentLimitManager (limit : Int) (rows : List UsageRecord) (now : Int) :
    ManagerMoney :=
  loadUsageData rows now (newManagerMoney limit)

/-- A sequence of `AddCost` calls, each with its own delta and call time. -/
def addCostSeq (m : ManagerMoney) (key : String) (charges : List (Int × Int)) :
    ManagerMoney :=
  charges.foldl (fun acc c => acc.addCost key c.1 c.2) m

/-- Concrete limiter state used by the C1 witness: limit 100 nano-units, one
key whose current window has spent exactly 100. -/
def c1mgr : ManagerMoney := ⟨100, [("k", ⟨0, 100⟩)]⟩

/-- The tariff of the C3 scenario as its float configuration: gpt-4o at
$5 / $0.5 / $15 per million tokens. -/
def c3cfgFloat : PricingConfig :=
  ⟨[("gpt-4o", { prompt := 5, cachedPrompt := 1/2, completion := 15 })], none⟩

/-- The C3 tariff converted to Money rates by `ToMoney`. -/
def c3cfg : PricingConfigMoney := c3cfgFloat.toMoney

/-- A Money config with one model and small per-token rates, used by the C4
witness. -/
def c4cfg : PricingConfigMoney :=
  ⟨[("micro-model", { prompt := 7, cachedPrompt := 3, completion := 11 })], none⟩

/-- A Money config whose single model `gpt-4` carries the alias `g4`, used to
probe alias handling (C7). -/
def c7cfg : PricingConfigMoney :=
  ⟨[("gpt-4",
      { prompt := 300000
        cachedPrompt := 30000
        completion := 600000
        aliases := ["g4"] })], none⟩

/-! ## Helper lemmas -/

/-! ### Wraparound arithmetic lemmas -/

theorem wrap64_eq_self {x : Int} (h1 : int64Min ≤ x) (h2 : x ≤ int64Max) :
    wrap64 x = x := by
  simp only [wrap64, int64Min, int64Max] at *
  omega

theorem wrap64_zero : wrap64 0 = 0 := by decide

theorem wrap64_add_left (x y : Int) : wrap64 (wrap64 x + y) = wrap64 (x + y) := by
  simp only [wrap64]
  omega

theorem wrap64_add_right (x y : Int) : wrap64 (x + wrap64 y) = wrap64 (x + y) := by
  simp only [wrap64]
  omega

theorem wrap64_congr {x y : Int} (h : x % 2 ^ 64 = y % 2 ^ 64) : wrap64 x = wrap64 y := by
  simp only [wrap64]
  omega

theorem wrap64_emod (x : Int) : wrap64 x % 2 ^ 64 = x % 2 ^ 64 := by
  simp only [wrap64]
  omega

theorem wrap64_wrap64 (x : Int) : wrap64 (wrap64 x) = wrap64 x :=
  wrap64_congr (wrap64_emod x)

theorem wrap64_mul_left (x y : Int) : wrap64 (wrap64 x * y) = wrap64 (x * y) := by
  refine wrap64_congr ?_
  have h : wrap64 x % 2 ^ 64 = x % 2 ^ 64 := wrap64_emod x
  rw [Int.mul_emod, h, ← Int.mul_emod]

theorem wrap64_mul_right (x y : Int) : wrap64 (x * wrap64 y) = wrap64 (x * y) := by
  refine wrap64_congr ?_
  have h : wrap64 y % 2 ^ 64 = y % 2 ^ 64 := wrap64_emod y
  rw [Int.mul_emod, h, ← Int.mul_emod]


theorem lookupKW_setKW_self (l : List (String × KeyWindowMoney)) (key : String)
    (kw : KeyWindowMoney) : lookupKW (setKW l key kw) key = some kw := by
  induction l with
  | nil => simp [setKW, lookupKW]
  | cons e rest ih =>
    by_cases h : e.1 = key
    · simp [setKW, lookupKW, h]
    · simp [setKW, lookupKW, h, ih]

theorem lookupKW_cons_self (key : String) (kw : KeyWindowMoney)
    (rest : List (String × KeyWindowMoney)) :
    lookupKW ((key, kw) :: rest) key = some kw := by
  simp [lookupKW]

theorem setKW_cons_self (key : String) (kw0 kw : KeyWindowMoney)
    (rest : List (String × KeyWindowMoney)) :
    setKW ((key, kw0) :: rest) key kw = (key, kw) :: rest := by
  simp [setKW]

theorem setKW_nil (key : String) (kw : KeyWindowMoney) :
    setKW [] key kw = [(key, kw)] := rfl

theorem lookupKW_nil (key : String) : lookupKW [] key = none := rfl

theorem isNegative_false_of_pos {x : Int} (h : 0 < x) : Money.isNegative x = false := by
  simp only [Money.isNegative, decide_eq_false_iff_not, not_lt]
  omega

theorem isZero_false_of_pos {x : Int} (h : 0 < x) : Money.isZero x = false := by
  simp only [Money.isZero, beq_eq_false_iff_ne, ne_eq]
  omega

/-- `AddCost` with the empty key is a no-op. -/
theorem addCost_emptyKey (m : ManagerMoney) (d : Int) (t : Int) :
    m.addCost "" d t = m := by
  simp [ManagerMoney.addCost]

theorem foldl_moneyAdd_wrap (l : List Int) (a : Int) :
    l.foldl Money.add (wrap64 a) = wrap64 (a + l.sum) := by
  induction l generalizing a with
  | nil => simp
  | cons x rest ih =>
    have h : Money.add (wrap64 a) x = wrap64 (a + x) := wrap64_add_left a x
    calc (x :: rest).foldl Money.add (wrap64 a)
        = rest.foldl Money.add (wrap64 (a + x)) := by
          simp only [List.foldl_cons, h]
      _ = wrap64 (a + x + rest.sum) := ih (a + x)
      _ = wrap64 (a + (x :: rest).sum) := by
          simp only [List.sum_cons]
          ring_nf

theorem foldl_moneyAdd_zero (l : List Int) :
    l.foldl Money.add 0 = wrap64 l.sum := by
  have h0 : (0 : Int) = wrap64 0 := by rw [wrap64_zero]
  rw [h0, foldl_moneyAdd_wrap, zero_add]

/-! ## C1: Allow limit boundary -/

/-- C1: for `ManagerMoney.Allow`, with a positive limit and a non-empty key
the allowed flag is false exactly when the returned current-window spend
(after any due reset) has reached the limit; a negative limit always allows
(every key); a zero limit always denies non-empty keys. -/
theorem allow_limit_boundary (m : ManagerMoney) (key : String) (now : Int) :
    (key ≠ "" → 0 < m.limit →
      (((m.allow key now).1.allowed = false ↔ m.limit ≤ (m.allow key now).1.spentSoFar) ∧
        (m.allow key now).1.spentSoFar = (resetIfExpired (m.getKWMoney key now).1 now).spent)) ∧
    (m.limit < 0 → (m.allow key now).1.allowed = true) ∧
    (key ≠ "" → m.limit = 0 → (m.allow key now).1.allowed = false) := by
  refine ⟨?_, ?_, ?_⟩
  · intro hk hlim
    have hneg : Money.isNegative m.limit = false := isNegative_false_of_pos hlim
    have hzero : Money.isZero m.limit = false := isZero_false_of_pos hlim
    simp only [ManagerMoney.allow, if_neg hk, hneg, hzero, Bool.false_eq_true, if_false,
      resetIfExpired, Money.lessThan]
    constructor
    · constructor
      · intro h
        by_contra hc
        simp only [decide_eq_false_iff_not, not_lt] at h
        omega
      · intro h
        simp only [decide_eq_false_iff_not, not_lt]
        omega
    · trivial
  · intro hlim
    have hneg : Money.isNegative m.limit = true := by
      simp only [Money.isNegative, decide_eq_true_eq]
      omega
    by_cases hk : key = ""
    · simp [ManagerMoney.allow, hk]
    · simp [ManagerMoney.allow, hk, hneg]
  · intro hk hlim
    have hneg : Money.isNegative m.limit = false := by
      simp only [Money.isNegative, decide_eq_false_iff_not, not_lt]
      omega
    have hzero : Money.isZero m.limit = true := by
      simp only [Money.isZero, beq_iff_eq]
      omega
    simp [ManagerMoney.allow, hk, hneg, hzero]

/-- Witness for C1 at a concrete state: a key that has spent exactly the
limit is denied, and the returned spend is the post-reset window spend. -/
theorem allow_limit_boundary_witness :
    ((c1mgr.allow "k" 0).1.allowed = false ↔ c1mgr.limit ≤ (c1mgr.allow "k" 0).1.spentSoFar) ∧
      (c1mgr.allow "k" 0).1.spentSoFar = (resetIfExpired (c1mgr.getKWMoney "k" 0).1 0).spent :=
  (allow_limit_boundary c1mgr "k" 0).1 (by decide) (by decide)

/-! ## C9: anonymous (empty-key) bypass -/

/-- C9: `Allow` with the empty key always allows with zero reported spend and
does not change the state, and any sequence of `AddCost` calls against the
empty key leaves the limiter state exactly unchanged. -/
theorem empty_key_bypass (m : ManagerMoney) (now : Int) (charges : List (Int × Int)) :
    (m.allow "" now).1.allowed = true ∧
    (m.allow "" now).1.spentSoFar = 0 ∧
    (m.allow "" now).2 = m ∧
    addCostSeq m "" charges = m := by
  refine ⟨by simp [ManagerMoney.allow], by simp [ManagerMoney.allow],
    by simp [ManagerMoney.allow], ?_⟩
  induction charges with
  | nil => rfl
  | cons c rest ih =>
    simp only [addCostSeq, List.foldl_cons] at ih ⊢
    rw [addCost_emptyKey]
    exact ih

/-! ## C8: one shared expiry-reset rule across all window-touching operations -/

/-- C8: for a non-empty key under a positive limit, Allow, AddCost, GetUsage
and GetAllUsage all apply the identical reset rule (`resetIfExpired`) before
reading or writing: Allow stores and reports exactly the post-reset window,
GetUsage reports the same windowStart, spent and windowEnd, AddCost issued at
the same instant observes the same windowStart, and no reported windowStart
(hence no spent or windowEnd) comes from a window more than one hour old. -/
theorem window_reset_coherence (m : ManagerMoney) (key : String) (now δ : Int)
    (hk : key ≠ "") (hlim : 0 < m.limit) (hd : 0 < δ) :
    lookupKW ((m.allow key now).2.perKey) key =
        some (resetIfExpired (m.getKWMoney key now).1 now) ∧
    (m.allow key now).1.spentSoFar = (resetIfExpired (m.getKWMoney key now).1 now).spent ∧
    (m.allow key now).1.windowEnd =
        (resetIfExpired (m.getKWMoney key now).1 now).windowStart + hourSec ∧
    now - (resetIfExpired (m.getKWMoney key now).1 now).windowStart < hourSec ∧
    (m.getUsage key now).1.windowStart =
        (resetIfExpired (m.getKWMoney key now).1 now).windowStart ∧
    (m.getUsage key now).1.spent = (resetIfExpired (m.getKWMoney key now).1 now).spent ∧
    (m.getUsage key now).1.windowEnd =
        (resetIfExpired (m.getKWMoney key now).1 now).windowStart + hourSec ∧
    lookupKW ((m.addCost key δ now).perKey) key =
        some ⟨(resetIfExpired (m.getKWMoney key now).1 now).windowStart,
          Money.add (resetIfExpired (m.getKWMoney key now).1 now).spent δ⟩ ∧
    (∀ info ∈ (m.getAllUsage now).1, now - info.windowStart < hourSec) := by
  have hneg : Money.isNegative m.limit = false := isNegative_false_of_pos hlim
  have hzero : Money.isZero m.limit = false := isZero_false_of_pos hlim
  have hdz : Money.isZero δ = false := isZero_false_of_pos hd
  have hdn : Money.isNegative δ = false := isNegative_false_of_pos hd
  refine ⟨?_, ?_, ?_, ?_, ?_, ?_, ?_, ?_, ?_⟩
  · simp only [ManagerMoney.allow, if_neg hk, hneg, hzero, Bool.false_eq_true, if_false,
      resetIfExpired]
    exact lookupKW_setKW_self _ _ _
  · simp only [ManagerMoney.allow, if_neg hk, hneg, hzero, Bool.false_eq_true, if_false,
      resetIfExpired]
  · simp only [ManagerMoney.allow, if_neg hk, hneg, hzero, Bool.false_eq_true, if_false,
      resetIfExpired]
  · simp only [resetIfExpired]
    split_ifs with hexp
    · simp only [hourSec]
      omega
    · simp only [hourSec] at hexp ⊢
      omega
  · simp only [ManagerMoney.getUsage, if_neg hk, hneg, hzero, Bool.false_eq_true, if_false,
      resetIfExpired]
  · simp only [ManagerMoney.getUsage, if_neg hk, hneg, hzero, Bool.false_eq_true, if_false,
      resetIfExpired]
  · simp only [ManagerMoney.getUsage, if_neg hk, hneg, hzero, Bool.false_eq_true, if_false,
      resetIfExpired]
  · have hkd : decide (key = "") = false := decide_eq_false hk
    simp only [ManagerMoney.addCost, hneg, hzero, hdz, hdn, hkd, Bool.false_or,
      Bool.or_self, Bool.false_eq_true, if_false, resetIfExpired]
    exact lookupKW_setKW_self _ _ _
  · intro info hmem
    simp only [ManagerMoney.getAllUsage, List.mem_map] at hmem
    obtain ⟨e, _, rfl⟩ := hmem
    simp only []
    split_ifs with hexp
    · simp only [hourSec]
      omega
    · simp only [hourSec] at hexp ⊢
      omega

/-- Witness for C8: a key whose window is 2 hours old at `now = 7200`; every
operation observes the same reset (fresh) window. -/
theorem window_reset_coherence_witness :
    lookupKW ((c1mgr.allow "k" 7200).2.perKey) "k" =
        some (resetIfExpired (c1mgr.getKWMoney "k" 7200).1 7200) ∧
    (c1mgr.allow "k" 7200).1.spentSoFar =
        (resetIfExpired (c1mgr.getKWMoney "k" 7200).1 7200).spent ∧
    (c1mgr.allow "k" 7200).1.windowEnd =
        (resetIfExpired (c1mgr.getKWMoney "k" 7200).1 7200).windowStart + hourSec ∧
    7200 - (resetIfExpired (c1mgr.getKWMoney "k" 7200).1 7200).windowStart < hourSec ∧
    (c1mgr.getUsage "k" 7200).1.windowStart =
        (resetIfExpired (c1mgr.getKWMoney "k" 7200).1 7200).windowStart ∧
    (c1mgr.getUsage "k" 7200).1.spent =
        (resetIfExpired (c1mgr.getKWMoney "k" 7200).1 7200).spent ∧
    (c1mgr.getUsage "k" 7200).1.windowEnd =
        (resetIfExpired (c1mgr.getKWMoney "k" 7200).1 7200).windowStart + hourSec ∧
    lookupKW ((c1mgr.addCost "k" 5 7200).perKey) "k" =
        some ⟨(resetIfExpired (c1mgr.getKWMoney "k" 7200).1 7200).windowStart,
          Money.add (resetIfExpired (c1mgr.getKWMoney "k" 7200).1 7200).spent 5⟩ ∧
    (∀ info ∈ (c1mgr.getAllUsage 7200).1, 7200 - info.windowStart < hourSec) :=
  window_reset_coherence c1mgr "k" 7200 5 (by decide) (by decide) (by decide)

/-! ## C2: exact additivity of Money charges within one window -/

/-- One `AddCost` on a single-key state inside the live window adds exactly
the delta (no wraparound under the int64 bound). -/
theorem addCost_single_entry (lim : Int) (key : String) (t0 p c t : Int)
    (hk : key ≠ "") (hlim : 0 < lim) (hc : 0 < c) (hp : 0 ≤ p)
    (ht : t - t0 < hourSec) (hrange : p + c ≤ int64Max) :
    (⟨lim, [(key, ⟨t0, p⟩)]⟩ : ManagerMoney).addCost key c t =
      ⟨lim, [(key, ⟨t0, p + c⟩)]⟩ := by
  have hkd : decide (key = "") = false := decide_eq_false hk
  have hneg : Money.isNegative lim = false := isNegative_false_of_pos hlim
  have hzero : Money.isZero lim = false := isZero_false_of_pos hlim
  have hcz : Money.isZero c = false := isZero_false_of_pos hc
  have hcn : Money.isNegative c = false := isNegative_false_of_pos hc
  have hwrap : wrap64 (p + c) = p + c := by
    apply wrap64_eq_self
    · simp only [int64Min]
      omega
    · exact hrange
  simp only [ManagerMoney.addCost, hkd, hneg, hzero, hcz, hcn, Bool.false_or, Bool.or_self,
    Bool.false_eq_true, if_false, ManagerMoney.getKWMoney, lookupKW_cons_self,
    if_neg (by omega : ¬ t - t0 ≥ hourSec), setKW_cons_self, Money.add, hwrap]

/-- Folding a list of in-window positive charges over `AddCost` accumulates
their exact integer sum, starting from any already-accumulated spend `p`. -/
theorem addCostSeq_single_key (lim : Int) (key : String) (t0 : Int)
    (charges : List (Int × Int)) :
    ∀ p : Int, key ≠ "" → 0 < lim → 0 ≤ p →
    (∀ c ∈ charges, 0 < c.1) → (∀ c ∈ charges, c.2 - t0 < hourSec) →
    p + (charges.map Prod.fst).sum ≤ int64Max →
    addCostSeq ⟨lim, [(key, ⟨t0, p⟩)]⟩ key charges =
      ⟨lim, [(key, ⟨t0, p + (charges.map Prod.fst).sum⟩)]⟩ := by
  induction charges with
  | nil => intro p _ _ _ _ _ _; simp [addCostSeq]
  | cons c rest ih =>
    intro p hk hlim hp hpos hwin hbound
    have hrestpos : ∀ x ∈ rest, 0 < x.1 := fun x hx => hpos x (List.mem_cons_of_mem _ hx)
    have hrestsum : 0 ≤ (rest.map Prod.fst).sum := by
      apply List.sum_nonneg
      intro x hx
      simp only [List.mem_map] at hx
      obtain ⟨e, he, rfl⟩ := hx
      exact le_of_lt (hrestpos e he)
    have hsum : (((c :: rest)).map Prod.fst).sum = c.1 + (rest.map Prod.fst).sum := by
      simp
    have hc : 0 < c.1 := hpos c (List.mem_cons_self _ _)
    have hstep : (⟨lim, [(key, ⟨t0, p⟩)]⟩ : ManagerMoney).addCost key c.1 c.2 =
        ⟨lim, [(key, ⟨t0, p + c.1⟩)]⟩ := by
      apply addCost_single_entry lim key t0 p c.1 c.2 hk hlim hc hp
        (hwin c (List.mem_cons_self _ _))
      omega
    calc addCostSeq ⟨lim, [(key, ⟨t0, p⟩)]⟩ key (c :: rest)
        = addCostSeq ⟨lim, [(key, ⟨t0, p + c.1⟩)]⟩ key rest := by
          simp only [addCostSeq, List.foldl_cons, hstep]
      _ = ⟨lim, [(key, ⟨t0, p + c.1 + (rest.map Prod.fst).sum⟩)]⟩ := by
          apply ih (p + c.1) hk hlim (by omega) hrestpos
            (fun x hx => hwin x (List.mem_cons_of_mem _ hx))
          omega
      _ = ⟨lim, [(key, ⟨t0, p + ((c :: rest).map Prod.fst).sum⟩)]⟩ := by
          rw [hsum]
          ring_nf

/-- C2: starting from a fresh limiter with positive limit, a non-empty
sequence of positive charges all issued within one hour of the first charge
leaves the key's spend at exactly the integer sum of the charges; the
precomputed sum via `Money.Add` is that exact sum; and the resulting limiter
state is bit-for-bit identical to one `AddCost` of the precomputed sum. -/
theorem addCost_additivity (lim : Int) (key : String) (c0 t0 : Int)
    (rest : List (Int × Int))
    (hk : key ≠ "") (hlim : 0 < lim)
    (hpos : ∀ c ∈ (c0, t0) :: rest, 0 < c.1)
    (hwin : ∀ c ∈ (c0, t0) :: rest, c.2 - t0 < hourSec)
    (hbound : (((c0, t0) :: rest).map Prod.fst).sum ≤ int64Max) :
    lookupKW (addCostSeq (newManagerMoney lim) key ((c0, t0) :: rest)).perKey key =
      some ⟨t0, (((c0, t0) :: rest).map Prod.fst).sum⟩ ∧
    (((c0, t0) :: rest).map Prod.fst).foldl Money.add 0 =
      (((c0, t0) :: rest).map Prod.fst).sum ∧
    addCostSeq (newManagerMoney lim) key ((c0, t0) :: rest) =
      (newManagerMoney lim).addCost key ((((c0, t0) :: rest).map Prod.fst).sum) t0 := by
  have hc0 : 0 < c0 := hpos (c0, t0) (List.mem_cons_self _ _)
  have hrestpos : ∀ x ∈ rest, 0 < x.1 := fun x hx => hpos x (List.mem_cons_of_mem _ hx)
  have hrestsum : 0 ≤ (rest.map Prod.fst).sum := by
    apply List.sum_nonneg
    intro x hx
    simp only [List.mem_map] at hx
    obtain ⟨e, he, rfl⟩ := hx
    exact le_of_lt (hrestpos e he)
  have hsum : (((c0, t0) :: rest).map Prod.fst).sum = c0 + (rest.map Prod.fst).sum := by
    simp
  have htotpos : 0 < (((c0, t0) :: rest).map Prod.fst).sum := by
    rw [hsum]; omega
  have hfirst : (newManagerMoney lim).addCost key c0 t0 =
      ⟨lim, [(key, ⟨t0, c0⟩)]⟩ := by
    have hkd : decide (key = "") = false := decide_eq_false hk
    have hneg : Money.isNegative lim = false := isNegative_false_of_pos hlim
    have hzero : Money.isZero lim = false := isZero_false_of_pos hlim
    have hcz : Money.isZero c0 = false := isZero_false_of_pos hc0
    have hcn : Money.isNegative c0 = false := isNegative_false_of_pos hc0
    have hwrap : wrap64 (0 + c0) = c0 := by
      rw [zero_add]
      apply wrap64_eq_self
      · simp only [int64Min]; omega
      · rw [hsum] at hbound; omega
    simp only [newManagerMoney, ManagerMoney.addCost, hkd, hneg, hzero, hcz, hcn,
      Bool.false_or, Bool.or_self, Bool.false_eq_true, if_false, ManagerMoney.getKWMoney,
      lookupKW_nil, setKW_nil, setKW_cons_self,
      if_neg (by simp only [hourSec]; omega : ¬ t0 - t0 ≥ hourSec),
      Money.add, hwrap]
  have hrun : addCostSeq (newManagerMoney lim) key ((c0, t0) :: rest) =
      ⟨lim, [(key, ⟨t0, (((c0, t0) :: rest).map Prod.fst).sum⟩)]⟩ := by
    calc addCostSeq (newManagerMoney lim) key ((c0, t0) :: rest)
        = addCostSeq ⟨lim, [(key, ⟨t0, c0⟩)]⟩ key rest := by
          simp only [addCostSeq, List.foldl_cons, hfirst]
      _ = ⟨lim, [(key, ⟨t0, c0 + (rest.map Prod.fst).sum⟩)]⟩ := by
          apply addCostSeq_single_key lim key t0 rest c0 hk hlim (le_of_lt hc0) hrestpos
            (fun x hx => hwin x (List.mem_cons_of_mem _ hx))
          rw [hsum] at hbound; omega
      _ = ⟨lim, [(key, ⟨t0, (((c0, t0) :: rest).map Prod.fst).sum⟩)]⟩ := by rw [hsum]
  refine ⟨?_, ?_, ?_⟩
  · rw [hrun]
    simp [lookupKW]
  · rw [foldl_moneyAdd_zero]
    apply wrap64_eq_self
    · simp only [int64Min]; omega
    · exact hbound
  · rw [hrun]
    have hkd : decide (key = "") = false := decide_eq_false hk
    have hneg : Money.isNegative lim = false := isNegative_false_of_pos hlim
    have hzero : Money.isZero lim = false := isZero_false_of_pos hlim
    have htz : Money.isZero (((c0, t0) :: rest).map Prod.fst).sum = false :=
      isZero_false_of_pos htotpos
    have htn : Money.isNegative (((c0, t0) :: rest).map Prod.fst).sum = false :=
      isNegative_false_of_pos htotpos
    have hwrap : wrap64 (0 + (((c0, t0) :: rest).map Prod.fst).sum) =
        (((c0, t0) :: rest).map Prod.fst).sum := by
      rw [zero_add]
      apply wrap64_eq_self
      · simp only [int64Min]; omega
      · exact hbound
    simp only [newManagerMoney, ManagerMoney.addCost, hkd, hneg, hzero, htz, htn,
      Bool.false_or, Bool.or_self, Bool.false_eq_true, if_false, ManagerMoney.getKWMoney,
      lookupKW_nil, setKW_nil, setKW_cons_self,
      if_neg (by simp only [hourSec]; omega : ¬ t0 - t0 ≥ hourSec),
      Money.add, hwrap]

/-- Witness for C2: three charges 6e9, 3e9, 2e9 nano-units at seconds
0, 10, 20 sum to exactly 11e9, matching a single AddCost of the sum. -/
theorem addCost_additivity_witness :
    lookupKW (addCostSeq (newManagerMoney 20000000000) "k"
        [(6000000000, 0), (3000000000, 10), (2000000000, 20)]).perKey "k" =
      some ⟨0, 11000000000⟩ ∧
    ([(6000000000 : Int), 3000000000, 2000000000].foldl Money.add 0 = 11000000000) ∧
    addCostSeq (newManagerMoney 20000000000) "k"
        [(6000000000, 0), (3000000000, 10), (2000000000, 20)] =
      (newManagerMoney 20000000000).addCost "k" 11000000000 0 := by
  have h := addCost_additivity 20000000000 "k" 6000000000 0
    [(3000000000, 10), (2000000000, 20)]
    (by decide) (by decide)
    (by intro c hc; fin_cases hc <;> decide)
    (by intro c hc; fin_cases hc <;> decide)
    (by decide)
  obtain ⟨h1, h2, h3⟩ := h
  refine ⟨?_, ?_, ?_⟩
  · have hs : (([((6000000000 : Int), (0 : Int)), (3000000000, 10),
        (2000000000, 20)]).map Prod.fst).sum = 11000000000 := by decide
    rw [← hs]
    exact h1
  · have hs : (([((6000000000 : Int), (0 : Int)), (3000000000, 10),
        (2000000000, 20)]).map Prod.fst).sum = 11000000000 := by decide
    have hm : (([((6000000000 : Int), (0 : Int)), (3000000000, 10),
        (2000000000, 20)]).map Prod.fst) = [6000000000, 3000000000, 2000000000] := by decide
    rw [← hs, ← hm]
    exact h2
  · have hs : (([((6000000000 : Int), (0 : Int)), (3000000000, 10),
        (2000000000, 20)]).map Prod.fst).sum = 11000000000 := by decide
    rw [← hs]
    exact h3

/-! ## C5: restart recovery via load-time replay -/

/-- The SQL cutoff check and the in-memory activity check of `loadUsageData`
coincide. -/
theorem loadCondition_iff (now ws : Int) :
    (now - hourSec < ws) ↔ (now - ws < hourSec) := by
  omega

/-- `loadUsageData` replays exactly the rows whose windowStart is within the
last hour: its double test (SQL `window_start > cutoff` plus the in-memory
`now.Sub(windowStart) < time.Hour`) collapses to one filter. -/
theorem loadUsageData_eq_filter (rows : List UsageRecord) (now : Int) (m : ManagerMoney) :
    loadUsageData rows now m =
      (rows.filter (fun r => now - r.windowStart < hourSec)).foldl
        (fun acc r => acc.addCost r.key r.spent now) m := by
  induction rows generalizing m with
  | nil => rfl
  | cons r rest ih =>
    by_cases h : now - r.windowStart < hourSec
    · have hA : now - hourSec < r.windowStart := by omega
      simp only [loadUsageData, List.filter_cons, decide_eq_true_eq, hA, if_true, h,
        eq_self_iff_true, List.foldl_cons, if_pos hA, if_pos h] at ih ⊢
      rw [ih]
    · have hA : ¬ (now - hourSec < r.windowStart) := by omega
      simp only [loadUsageData, List.filter_cons, decide_eq_true_eq, hA, h,
        if_false, iff_false, List.foldl_cons, if_neg hA, if_neg h] at ih ⊢
      rw [ih]

/-- `AddCost` on a fresh manager creates the key's window at the call time
with exactly the delta spent. -/
theorem addCost_fresh (lim : Int) (key : String) (c t : Int)
    (hk : key ≠ "") (hlim : 0 < lim) (hc : 0 < c) (hcmax : c ≤ int64Max) :
    (newManagerMoney lim).addCost key c t = ⟨lim, [(key, ⟨t, c⟩)]⟩ := by
  have hkd : decide (key = "") = false := decide_eq_false hk
  have hneg : Money.isNegative lim = false := isNegative_false_of_pos hlim
  have hzero : Money.isZero lim = false := isZero_false_of_pos hlim
  have hcz : Money.isZero c = false := isZero_false_of_pos hc
  have hcn : Money.isNegative c = false := isNegative_false_of_pos hc
  have hwrap : wrap64 (0 + c) = c := by
    rw [zero_add]
    apply wrap64_eq_self
    · simp only [int64Min]; omega
    · exact hcmax
  simp only [newManagerMoney, ManagerMoney.addCost, hkd, hneg, hzero, hcz, hcn,
    Bool.false_or, Bool.or_self, Bool.false_eq_true, if_false, ManagerMoney.getKWMoney,
    lookupKW_nil, setKW_nil, setKW_cons_self,
    if_neg (by simp only [hourSec]; omega : ¬ t - t ≥ hourSec), Money.add, hwrap]

/-- `GetUsage` on a single-key state inside the live window reports the
stored spend. -/
theorem getUsage_single_entry (lim : Int) (key : String) (t0 p t : Int)
    (hk : key ≠ "") (hlim : 0 < lim) (ht : t - t0 < hourSec) :
    ((⟨lim, [(key, ⟨t0, p⟩)]⟩ : ManagerMoney).getUsage key t).1.spent = p := by
  have hneg : Money.isNegative lim = false := isNegative_false_of_pos hlim
  have hzero : Money.isZero lim = false := isZero_false_of_pos hlim
  simp only [ManagerMoney.getUsage, if_neg hk, hneg, hzero, Bool.false_eq_true, if_false,
    ManagerMoney.getKWMoney, lookupKW_cons_self,
    if_neg (by omega : ¬ t - t0 ≥ hourSec)]

/-- `GetUsage` on a fresh manager (untracked key) reports zero spend. -/
theorem getUsage_fresh (lim : Int) (key : String) (t : Int)
    (hk : key ≠ "") (hlim : 0 < lim) :
    ((newManagerMoney lim).getUsage key t).1.spent = 0 := by
  have hneg : Money.isNegative lim = false := isNegative_false_of_pos hlim
  have hzero : Money.isZero lim = false := isZero_false_of_pos hlim
  simp only [newManagerMoney, ManagerMoney.getUsage, if_neg hk, hneg, hzero,
    Bool.false_eq_true, if_false, ManagerMoney.getKWMoney, lookupKW_nil,
    if_neg (by simp only [hourSec]; omega : ¬ t - t ≥ hourSec)]

/-- C5: startup load replays exactly the stored rows whose windowStart lies
within the last hour, each as an AddCost of its stored spent; a key recorded
with spend S at windowStart T is reported with spend S after a restart at
T+30min and with spend 0 after a restart at T+90min. -/
theorem restart_recovery (rows : List UsageRecord) (now : Int) (m : ManagerMoney)
    (lim S T lu : Int) (key mk : String)
    (hk : key ≠ "") (hlim : 0 < lim) (hS : 0 < S) (hSmax : S ≤ int64Max) :
    loadUsageData rows now m =
      (rows.filter (fun r => now - r.windowStart < hourSec)).foldl
        (fun acc r => acc.addCost r.key r.spent now) m ∧
    ((newPersistentLimitManager lim [⟨key, mk, T, S, lu⟩] (T + 1800)).getUsage key
        (T + 1800)).1.spent = S ∧
    ((newPersistentLimitManager lim [⟨key, mk, T, S, lu⟩] (T + 5400)).getUsage key
        (T + 5400)).1.spent = 0 := by
  refine ⟨loadUsageData_eq_filter rows now m, ?_, ?_⟩
  · have hload : newPersistentLimitManager lim [⟨key, mk, T, S, lu⟩] (T + 1800) =
        ⟨lim, [(key, ⟨T + 1800, S⟩)]⟩ := by
      have hA : T + 1800 - hourSec < T := by simp only [hourSec]; omega
      have hB : T + 1800 - T < hourSec := by simp only [hourSec]; omega
      simp only [newPersistentLimitManager, loadUsageData, List.filter_cons,
        decide_eq_true_eq, hA, if_true, List.filter_nil, List.foldl_cons, List.foldl_nil,
        if_pos hA, if_pos hB]
      exact addCost_fresh lim key S (T + 1800) hk hlim hS hSmax
    rw [hload]
    exact getUsage_single_entry lim key (T + 1800) S (T + 1800) hk hlim
      (by simp only [hourSec]; omega)
  · have hload : newPersistentLimitManager lim [⟨key, mk, T, S, lu⟩] (T + 5400) =
        newManagerMoney lim := by
      have hA : ¬ (T + 5400 - hourSec < T) := by simp only [hourSec]; omega
      simp only [newPersistentLimitManager, loadUsageData, List.filter_cons,
        decide_eq_true_eq, hA, if_false, iff_false, List.filter_nil, List.foldl_nil,
        if_neg hA]
    rw [hload]
    exact getUsage_fresh lim key (T + 5400) hk hlim

/-- Witness for C5: a row with spend 77 at windowStart 0; the limiter reports
77 after a restart at second 1800 and 0 after a restart at second 5400. -/
theorem restart_recovery_witness :
    loadUsageData [⟨"k", "mask", 0, 77, 0⟩] 1800 (newManagerMoney 100) =
      (([⟨"k", "mask", 0, 77, 0⟩] : List UsageRecord).filter
          (fun r => 1800 - r.windowStart < hourSec)).foldl
        (fun acc r => acc.addCost r.key r.spent 1800) (newManagerMoney 100) ∧
    ((newPersistentLimitManager 100 [⟨"k", "mask", 0, 77, 0⟩] 1800).getUsage "k"
        1800).1.spent = 77 ∧
    ((newPersistentLimitManager 100 [⟨"k", "mask", 0, 77, 0⟩] 5400).getUsage "k"
        5400).1.spent = 0 := by
  have h := restart_recovery [⟨"k", "mask", 0, 77, 0⟩] 1800 (newManagerMoney 100)
    100 77 0 0 "k" "mask" (by decide) (by decide) (by decide) (by decide)
  simpa using h

/-! ## C10: a restored window starts at load time, not at the persisted
windowStart -/

/-- C10: replaying a stored row at startup re-creates the in-memory window
with windowStart equal to the load time (not the persisted windowStart), so
the windowEnd that Allow reports for a restored key after a restart is
strictly later than the windowEnd the same window had before the restart. -/
theorem restored_window_starts_at_load_time (lim S lu ws loadNow : Int)
    (key mk : String)
    (hk : key ≠ "") (hlim : 0 < lim) (hS : 0 < S) (hSmax : S ≤ int64Max)
    (hactive : loadNow - ws < hourSec) (hlater : ws < loadNow) :
    lookupKW (newPersistentLimitManager lim [⟨key, mk, ws, S, lu⟩] loadNow).perKey key =
      some ⟨loadNow, S⟩ ∧
    ((newPersistentLimitManager lim [⟨key, mk, ws, S, lu⟩] loadNow).allow key
        loadNow).1.windowEnd = loadNow + hourSec ∧
    ws + hourSec <
      ((newPersistentLimitManager lim [⟨key, mk, ws, S, lu⟩] loadNow).allow key
        loadNow).1.windowEnd := by
  have hload : newPersistentLimitManager lim [⟨key, mk, ws, S, lu⟩] loadNow =
      ⟨lim, [(key, ⟨loadNow, S⟩)]⟩ := by
    have hA : loadNow - hourSec < ws := by omega
    simp only [newPersistentLimitManager, loadUsageData, List.filter_cons,
      decide_eq_true_eq, hA, if_true, List.filter_nil, List.foldl_cons, List.foldl_nil,
      if_pos hA, if_pos hactive]
    exact addCost_fresh lim key S loadNow hk hlim hS hSmax
  have hneg : Money.isNegative lim = false := isNegative_false_of_pos hlim
  have hzero : Money.isZero lim = false := isZero_false_of_pos hlim
  have hallow : ((⟨lim, [(key, ⟨loadNow, S⟩)]⟩ : ManagerMoney).allow key
      loadNow).1.windowEnd = loadNow + hourSec := by
    simp only [ManagerMoney.allow, if_neg hk, hneg, hzero, Bool.false_eq_true, if_false,
      ManagerMoney.getKWMoney, lookupKW_cons_self,
      if_neg (by simp only [hourSec]; omega : ¬ loadNow - loadNow ≥ hourSec)]
  rw [hload]
  refine ⟨lookupKW_cons_self key _ _, hallow, ?_⟩
  rw [hallow]
  omega

/-- Witness for C10: a row persisted at windowStart 0 and restored at second
1800: the restored window starts at 1800 and Allow reports windowEnd 5400,
later than the pre-restart windowEnd 3600. -/
theorem restored_window_starts_at_load_time_witness :
    lookupKW (newPersistentLimitManager 100 [⟨"k", "mask", 0, 42, 0⟩] 1800).perKey "k" =
      some ⟨1800, 42⟩ ∧
    ((newPersistentLimitManager 100 [⟨"k", "mask", 0, 42, 0⟩] 1800).allow "k"
        1800).1.windowEnd = 1800 + hourSec ∧
    (0 : Int) + hourSec <
      ((newPersistentLimitManager 100 [⟨"k", "mask", 0, 42, 0⟩] 1800).allow "k"
        1800).1.windowEnd := by
  have h := restored_window_starts_at_load_time 100 42 0 0 1800 "k" "mask"
    (by decide) (by decide) (by decide) (by decide) (by decide) (by decide)
  simpa using h

/-! ## C6: longest-prefix model-name resolution -/

/-- Invariant of the `bestMatch` fold: the result is either the start value
or a configured name that is a leading segment of `raw`, its length never
decreases, and it is at least as long as every matching configured name. -/
theorem bmFoldAux (raw : String) (keys : List String) :
    ∀ acc : String,
      (keys.foldl (bmStep raw) acc = acc ∨
        (keys.foldl (bmStep raw) acc ∈ keys ∧
          goHasPref raw (keys.foldl (bmStep raw) acc) = true)) ∧
      acc.data.length ≤ (keys.foldl (bmStep raw) acc).data.length ∧
      (∀ k ∈ keys, goHasPref raw k = true →
        k.data.length ≤ (keys.foldl (bmStep raw) acc).data.length) := by
  induction keys with
  | nil =>
    intro acc
    refine ⟨Or.inl rfl, le_refl _, ?_⟩
    intro k hk
    cases hk
  | cons cm rest ih =>
    intro acc
    obtain ⟨ih1, ih2, ih3⟩ := ih (bmStep raw acc cm)
    by_cases hc : acc.data.length < cm.data.length ∧ goHasPref raw cm = true
    · have he : bmStep raw acc cm = cm := by
        unfold bmStep
        rw [if_pos]
        rw [Bool.and_eq_true, decide_eq_true_eq]
        exact hc
      rw [he] at ih1 ih2 ih3
      refine ⟨?_, ?_, ?_⟩
      · rcases ih1 with h | h
        · right
          rw [List.foldl_cons, he, h]
          exact ⟨List.mem_cons_self _ _, hc.2⟩
        · right
          rw [List.foldl_cons, he]
          exact ⟨List.mem_cons_of_mem _ h.1, h.2⟩
      · rw [List.foldl_cons, he]
        exact le_trans (le_of_lt hc.1) ih2
      · intro k hk hkp
        rw [List.foldl_cons, he]
        rcases List.mem_cons.mp hk with rfl | hmem
        · exact ih2
        · exact ih3 k hmem hkp
    · have he : bmStep raw acc cm = acc := by
        unfold bmStep
        rw [if_neg]
        rw [Bool.and_eq_true, decide_eq_true_eq]
        exact hc
      rw [he] at ih1 ih2 ih3
      refine ⟨?_, ?_, ?_⟩
      · rcases ih1 with h | h
        · left
          rw [List.foldl_cons, he, h]
        · right
          rw [List.foldl_cons, he]
          exact ⟨List.mem_cons_of_mem _ h.1, h.2⟩
      · rw [List.foldl_cons, he]
        exact ih2
      · intro k hk hkp
        rw [List.foldl_cons, he]
        rcases List.mem_cons.mp hk with rfl | hmem
        · have : k.data.length ≤ acc.data.length := by
            by_contra hlt
            exact hc ⟨by omega, hkp⟩
          omega
        · exact ih3 k hmem hkp

/-- A string with a non-empty character list is not the empty string. -/
theorem ne_empty_of_data_length_pos {s : String} (h : 0 < s.data.length) : s ≠ "" := by
  intro he
  rw [he] at h
  simp at h

/-- C6: `resolveModelName` returns the raw name itself on an exact configured
key; returns the raw name when no configured name is a leading segment; and
otherwise returns a configured name that is a leading segment of the raw name
and is at least as long as every other matching configured name (the longest
prefix). -/
theorem resolveModelName_longest_match (keys : List String) (raw : String) :
    (raw ∈ keys → resolveModelName keys raw = raw) ∧
    ((∀ k ∈ keys, goHasPref raw k = false) → resolveModelName keys raw = raw) ∧
    (∀ k0 ∈ keys, goHasPref raw k0 = true → k0 ≠ "" → raw ∉ keys →
      (resolveModelName keys raw ∈ keys ∧
        goHasPref raw (resolveModelName keys raw) = true ∧
        ∀ k ∈ keys, goHasPref raw k = true →
          k.data.length ≤ (resolveModelName keys raw).data.length)) := by
  refine ⟨?_, ?_, ?_⟩
  · intro hmem
    simp [resolveModelName, hmem]
  · intro hno
    by_cases hmem : raw ∈ keys
    · simp [resolveModelName, hmem]
    · have haux := bmFoldAux raw keys ""
      obtain ⟨h1, _, _⟩ := haux
      have hbm : bestMatchFold keys raw = "" := by
        rw [bestMatchFold]
        rcases h1 with h | h
        · exact h
        · rw [hno _ h.1] at h
          cases h.2
      simp only [resolveModelName, if_neg hmem, hbm]
      simp
  · intro k0 hk0 hk0p hk0ne hmem
    obtain ⟨h1, _, h3⟩ := bmFoldAux raw keys ""
    have hk0len : 0 < k0.data.length := by
      by_contra hz
      apply hk0ne
      have hlen : k0.data.length = 0 := by omega
      have hdata : k0.data = [] := List.length_eq_zero.mp hlen
      cases k0 with
      | mk l => cases (show l = [] from hdata); rfl
    have hbmlen : 0 < (bestMatchFold keys raw).data.length :=
      lt_of_lt_of_le hk0len (h3 k0 hk0 hk0p)
    have hbmne : bestMatchFold keys raw ≠ "" := ne_empty_of_data_length_pos hbmlen
    have hres : resolveModelName keys raw = bestMatchFold keys raw := by
      simp [resolveModelName, hmem, hbmne]
    rw [hres]
    rcases h1 with h | h
    · rw [bestMatchFold] at hbmne
      exact absurd h hbmne
    · exact ⟨h.1, h.2, fun k hk hkp => h3 k hk hkp⟩

/-- Witness for C6: with models gpt-4o and gpt-4o-mini configured, resolving
gpt-4o-mini-2024-07-18 yields gpt-4o-mini (the longer matching name), not
gpt-4o. -/
theorem resolveModelName_longest_match_witness :
    resolveModelName ["gpt-4o", "gpt-4o-mini"] "gpt-4o-mini-2024-07-18" = "gpt-4o-mini" ∧
    (resolveModelName ["gpt-4o", "gpt-4o-mini"] "gpt-4o-mini-2024-07-18" ∈
        ["gpt-4o", "gpt-4o-mini"] ∧
      goHasPref "gpt-4o-mini-2024-07-18"
        (resolveModelName ["gpt-4o", "gpt-4o-mini"] "gpt-4o-mini-2024-07-18") = true ∧
      ∀ k ∈ ["gpt-4o", "gpt-4o-mini"],
        goHasPref "gpt-4o-mini-2024-07-18" k = true →
        k.data.length ≤
          (resolveModelName ["gpt-4o", "gpt-4o-mini"]
            "gpt-4o-mini-2024-07-18").data.length) :=
  ⟨by decide,
    (resolveModelName_longest_match ["gpt-4o", "gpt-4o-mini"]
        "gpt-4o-mini-2024-07-18").2.2 "gpt-4o-mini" (by decide) (by decide)
      (by decide) (by decide)⟩

/-! ## C7: aliases and the Money-based rate lookup -/

/-- Counterexample to C7: `g4` is a configured alias of `gpt-4` and is
neither a configured key nor resolvable by a configured-name leading segment,
yet `FindModelPricingMoney` finds nothing for it, and the cost computation
falls through to the unknown-model zero-cost path instead of returning
gpt-4's rate triple. -/
theorem alias_lookup_counterexample :
    (∃ e ∈ c7cfg.models, "g4" ∈ e.2.aliases) ∧
    lookupModel c7cfg.models "g4" = none ∧
    (∀ e ∈ c7cfg.models, goHasPref "g4" e.1 = false) ∧
    findModelPricingMoney c7cfg "g4" = none ∧
    (computePriceMoneyWithTier c7cfg "g4" ⟨100, 0, 200, 0⟩ "standard").note =
      "unknown model pricing" ∧
    (computePriceMoneyWithTier c7cfg "g4" ⟨100, 0, 200, 0⟩ "standard").totalCost = 0 := by
  refine ⟨⟨_, List.mem_cons_self _ _, by decide⟩, by decide, ?_, by decide, by decide,
    by decide⟩
  intro e he
  fin_cases he
  decide

/-- The prefix-match fold of `FindModelPricingMoney` never selects anything
when no configured name is a leading segment of the looked-up name. -/
theorem fmpFold_no_match (raw : String) (models : List (String × ModelPricingMoney)) :
    ∀ acc : String × Option ModelPricingMoney,
    (∀ e ∈ models, goHasPref raw e.1 = false) →
    models.foldl
      (fun (best : String × Option ModelPricingMoney) e =>
        if best.1.data.length < e.1.data.length && goHasPref raw e.1 then (e.1, some e.2)
        else best) acc = acc := by
  induction models with
  | nil => intro acc _; rfl
  | cons m rest ih =>
    intro acc hno
    have hm : goHasPref raw m.1 = false := hno m (List.mem_cons_self _ _)
    have hstep : (if acc.1.data.length < m.1.data.length && goHasPref raw m.1 then
        (m.1, some m.2) else acc) = acc := by
      rw [if_neg]
      rw [hm, Bool.and_false]
      simp
    rw [List.foldl_cons, hstep]
    exact ih acc (fun e he => hno e (List.mem_cons_of_mem _ he))

/-- C7 (amended): aliases are carried in the configuration but the
Money-based rate lookup used by cost computation never consults them — a raw
name that is not a configured key and has no configured name as a leading
segment resolves to no model-specific rate, whatever the aliases say. -/
theorem moneyLookup_ignores_aliases (cfg : PricingConfigMoney) (raw : String)
    (hdir : lookupModel cfg.models raw = none)
    (hnopref : ∀ e ∈ cfg.models, goHasPref raw e.1 = false) :
    findModelPricingMoney cfg raw = none := by
  simp only [findModelPricingMoney, hdir]
  rw [fmpFold_no_match raw cfg.models ("", none) hnopref]

/-- Witness for C7's amended claim at the alias configuration: the lookup of
the alias `g4` yields no model-specific rate. -/
theorem moneyLookup_ignores_aliases_witness :
    findModelPricingMoney c7cfg "g4" = none := by
  apply moneyLookup_ignores_aliases c7cfg "g4" (by decide)
  intro e he
  fin_cases he
  decide

/-! ## C3: the concrete gpt-4o pricing scenario -/

/-- The C3 tariff's Money rates, as computed by `ToMoney`: $5 / $0.5 / $15
per million tokens become 50000 / 5000 / 150000 nano-units per token. -/
theorem c3cfg_eq :
    c3cfg = ⟨[("gpt-4o", { prompt := 50000, cachedPrompt := 5000, completion := 150000 })],
      none⟩ := by
  simp only [c3cfg, c3cfgFloat, PricingConfig.toMoney, ModelPricing.toMoney,
    TierPricing.toMoney, newMoneyFromUSD, monetaryUnit, List.map, Option.map]
  norm_num [round_eq]

/-- C3: with gpt-4o configured at $5 / $0.5 / $15 per million tokens, usage
{prompt 1000, cached 200, completion 500} at the standard tier costs exactly
41,000,000 / 75,000,000 / 116,000,000 nano-units ($0.0041 / $0.0075 /
$0.0116). -/
theorem computePriceMoney_gpt4o_scenario :
    (computePriceMoneyWithTier c3cfg "gpt-4o" ⟨1000, 200, 500, 0⟩ "standard").promptCost =
        41000000 ∧
    (computePriceMoneyWithTier c3cfg "gpt-4o" ⟨1000, 200, 500, 0⟩ "standard").completionCost =
        75000000 ∧
    (computePriceMoneyWithTier c3cfg "gpt-4o" ⟨1000, 200, 500, 0⟩ "standard").totalCost =
        116000000 := by
  rw [c3cfg_eq]
  decide

/-! ## C4: per-token cost additivity -/

/-- C4: for any configured model (found by the rate lookup) and any n ≥ 1,
summing with `Money.Add` the Money total costs of n runs of the cost
computation on a 1-token usage gives bit-for-bit the same Money value as one
run on an n-token usage. -/
theorem per_token_cost_additivity (cfg : PricingConfigMoney) (modelRaw tier : String)
    (mp : ModelPricingMoney) (n : ℕ) (hn : 1 ≤ n)
    (hfound : findModelPricingMoney cfg
      (resolveModelName (cfg.models.map Prod.fst) modelRaw) = some mp) :
    (List.replicate n
        (computePriceMoneyWithTier cfg modelRaw ⟨1, 0, 0, 0⟩ tier).totalCost).foldl
      Money.add 0 =
    (computePriceMoneyWithTier cfg modelRaw ⟨(n : Int), 0, 0, 0⟩ tier).totalCost := by
  rcases hgt : getTierPricingMoney mp tier with ⟨pp, cp, cc, atier⟩
  have hget : getPricingMoney cfg (resolveModelName (cfg.models.map Prod.fst) modelRaw)
      tier = some (pp, cp, cc, atier) := by
    simp only [getPricingMoney, hfound, hgt]
  have h1 : (computePriceMoneyWithTier cfg modelRaw ⟨1, 0, 0, 0⟩ tier).totalCost =
      wrap64 pp := by
    simp only [computePriceMoneyWithTier, hget]
    norm_num [Money.multiply, Money.add, wrap64_zero, wrap64_wrap64]
  have h2 : (computePriceMoneyWithTier cfg modelRaw ⟨(n : Int), 0, 0, 0⟩ tier).totalCost =
      wrap64 (pp * (n : Int)) := by
    simp only [computePriceMoneyWithTier, hget]
    norm_num [Money.multiply, Money.add, wrap64_zero, wrap64_wrap64]
  rw [h1, h2, foldl_moneyAdd_zero, List.sum_replicate, nsmul_eq_mul,
    wrap64_mul_right, mul_comm]

/-- Witness for C4 at a concrete one-model config and n = 3. -/
theorem per_token_cost_additivity_witness :
    (List.replicate 3
        (computePriceMoneyWithTier c4cfg "micro-model" ⟨1, 0, 0, 0⟩
          "standard").totalCost).foldl Money.add 0 =
      (computePriceMoneyWithTier c4cfg "micro-model" ⟨((3 : ℕ) : Int), 0, 0, 0⟩
        "standard").totalCost :=
  per_token_cost_additivity c4cfg "micro-model" "standard"
    { prompt := 7, cachedPrompt := 3, completion := 11 } 3 (by decide) (by decide)

end Goxy
